import Mathlib

/-!
Verification development for the Macdonald polynomial basis engine
(file sage/combinat/sf/macdonald.py).

The engine works over the fraction field of integer polynomials in the two
parameters q and t.  We embed that scalar field by computable, canonical
association-list polynomials (QT) together with formal fractions (FQT), and
embed partitions, the structural scalars c1 and c2, the basis elements as
sparse partition-indexed coefficient maps, the to-Schur expansion rules of
the J, H, Ht and S bases, the deformed scalar products, the nabla and
omega operators, the determinant creation operator and the constructor
parameter validation.  External collaborators that the source consumes from
the surrounding library (partition combinatorics, the Schur and power-sum
reference algebra, the generic module-morphism helpers) are modelled from
the specification, as marked in the corresponding doc comments.
-/

namespace Mcd

/-- Bivariate integer polynomials in the parameters q and t.  A polynomial is
stored as an association list from exponent pairs (qExp, tExp) to nonzero
integer coefficients, kept sorted strictly ascending in lexicographic order
on the exponent pair; this representation is canonical, so list equality is
polynomial equality. -/
abbrev QT := List ((Nat × Nat) × Int)

/-- Lexicographic order on exponent pairs. -/
def keyLt (a b : Nat × Nat) : Bool := a.1 < b.1 || (a.1 = b.1 && a.2 < b.2)

/-- The zero polynomial. -/
def qtZero : QT := []

/-- The constant polynomial 1. -/
def qtOne : QT := [((0, 0), 1)]

/-- Sorted-merge addition with an explicit fuel bound on the combined
length (the fuel keeps the recursion structural, so that terms built from
it reduce inside the kernel). -/
def qtAddF : Nat → QT → QT → QT
  | _, [], ys => ys
  | _, x :: xs, [] => x :: xs
  | 0, xs, _ => xs
  | fuel + 1, (k1, a) :: xs, (k2, b) :: ys =>
    if keyLt k1 k2 then (k1, a) :: qtAddF fuel xs ((k2, b) :: ys)
    else if keyLt k2 k1 then (k2, b) :: qtAddF fuel ((k1, a) :: xs) ys
    else if a + b = 0 then qtAddF fuel xs ys
    else (k1, a + b) :: qtAddF fuel xs ys

/-- Addition of canonical polynomials: sorted merge, cancelling terms whose
coefficients sum to zero.  The combined length is enough fuel for the
merge. -/
def qtAdd (p r : QT) : QT := qtAddF (p.length + r.length) p r

/-- Negation of a polynomial. -/
def qtNeg (p : QT) : QT := p.map (fun x => (x.1, -x.2))

/-- Subtraction of polynomials. -/
def qtSub (a b : QT) : QT := qtAdd a (qtNeg b)

/-- Multiplication of a polynomial by a single monomial with exponents k and
coefficient c; the shift by a fixed exponent pair preserves sortedness. -/
def qtMonMul (k : Nat × Nat) (c : Int) (p : QT) : QT :=
  p.map (fun x => ((k.1 + x.1.1, k.2 + x.1.2), c * x.2))

/-- Multiplication of canonical polynomials. -/
def qtMul (p r : QT) : QT :=
  p.foldr (fun x acc => qtAdd (qtMonMul x.1 x.2 r) acc) []

/-- A single monomial c * q^qe * t^te (intended for c different from 0). -/
def qtMonomial (qe te : Nat) (c : Int) : QT := [((qe, te), c)]

/-- The constant polynomial with value c. -/
def qtConst (c : Int) : QT := if c = 0 then [] else [((0, 0), c)]

/-- Restore the canonical sorted form of an arbitrary term list by folding
the terms through the sorted-merge addition. -/
def qtCanon (p : List ((Nat × Nat) × Int)) : QT :=
  p.foldr (fun x acc => qtAdd [x] acc) []

/-- Exchange of the parameters q and t in a polynomial. -/
def qtSwap (p : QT) : QT := qtCanon (p.map (fun x => ((x.1.2, x.1.1), x.2)))

/-- Largest t-exponent occurring in a polynomial. -/
def qtMaxT (p : QT) : Nat := p.foldr (fun x acc => max x.1.2 acc) 0

/-- Substitute t by 1/t and then multiply by t^d (for d at least the largest
t-exponent of p, this clears all negative exponents). -/
def qtFlipT (d : Nat) (p : QT) : QT :=
  qtCanon (p.map (fun x => ((x.1.1, d - x.1.2), x.2)))

/-- Coefficient of the constant term of a polynomial. -/
def qtConstTerm (p : QT) : Int :=
  match p.find? (fun x => x.1 = (0, 0)) with
  | some x => x.2
  | none => 0

/-- Formal fractions of bivariate polynomials: the scalar field of the
engine.  A fraction is not kept reduced; two fractions are equal as field
elements when cross multiplication gives equal canonical polynomials. -/
structure FQT where
  num : QT
  den : QT
deriving DecidableEq

/-- The zero fraction. -/
def fqtZero : FQT := ⟨[], qtOne⟩

/-- The fraction 1. -/
def fqtOne : FQT := ⟨qtOne, qtOne⟩

/-- A polynomial viewed as a fraction. -/
def fqtOfQT (p : QT) : FQT := ⟨p, qtOne⟩

/-- Exact test for the zero fraction: a fraction with nonzero denominator is
zero exactly when its canonical numerator is the empty list. -/
def fqtIsZero (x : FQT) : Bool := x.num = []

/-- Addition of fractions, with a common-denominator shortcut that keeps
the representations small. -/
def fqtAdd (x y : FQT) : FQT :=
  if x.num = [] then y
  else if y.num = [] then x
  else if x.den = y.den then ⟨qtAdd x.num y.num, x.den⟩
  else ⟨qtAdd (qtMul x.num y.den) (qtMul y.num x.den), qtMul x.den y.den⟩

/-- Multiplication of fractions. -/
def fqtMul (x y : FQT) : FQT := ⟨qtMul x.num y.num, qtMul x.den y.den⟩

/-- Negation of a fraction. -/
def fqtNeg (x : FQT) : FQT := ⟨qtNeg x.num, x.den⟩

/-- Subtraction of fractions. -/
def fqtSub (x y : FQT) : FQT := fqtAdd x (fqtNeg y)

/-- Multiplicative inverse of a fraction. -/
def fqtInv (x : FQT) : FQT := ⟨x.den, x.num⟩

/-- Division of fractions. -/
def fqtDiv (x y : FQT) : FQT := ⟨qtMul x.num y.den, qtMul x.den y.num⟩

/-- Field equality of fractions by cross multiplication. -/
def fqtBeq (x y : FQT) : Bool := qtMul x.num y.den = qtMul y.num x.den

/-- Exchange of q and t in a fraction. -/
def fqtSwap (x : FQT) : FQT := ⟨qtSwap x.num, qtSwap x.den⟩

/-- Substitution of t by 1/t in a fraction: both numerator and denominator
are multiplied by the same power of t to clear negative exponents. -/
def fqtFlipT (x : FQT) : FQT :=
  let d := max (qtMaxT x.num) (qtMaxT x.den)
  ⟨qtFlipT d x.num, qtFlipT d x.den⟩

/-! Partitions.  Modelled from the spec: the partition combinatorics
(conjugate, arm and leg lengths, weighted size, dominance, centralizer
size, enumeration) is an external library interface consumed by the core;
the definitions below follow the interface description and glossary of the
specification. -/

/-- Sum of a list of naturals (the weight of a partition). -/
def listSum (l : List Nat) : Nat := l.foldr (fun a b => a + b) 0

/-- Recognizer for partitions: weakly decreasing lists of positive parts. -/
def isPartitionB : List Nat → Bool
  | [] => true
  | [x] => decide (0 < x)
  | x :: y :: rest => decide (y ≤ x) && isPartitionB (y :: rest)

/-- A partition is a weakly decreasing finite sequence of positive parts. -/
def IsPartition (l : List Nat) : Prop := isPartitionB l = true

instance (l : List Nat) : Decidable (IsPartition l) := by
  unfold IsPartition; infer_instance

/-- Modelled from the spec: conjugate partition (column lengths of the
diagram). -/
def conjPart (l : List Nat) : List Nat :=
  (List.range (l.headD 0)).map (fun j => (l.filter (fun li => j < li)).length)

/-- Modelled from the spec: arm lengths of all cells in row-major reading
order, the arm of a cell being the number of cells strictly to its right. -/
def armLengthList (l : List Nat) : List Nat :=
  (l.map (fun li => (List.range li).map (fun j => li - j - 1))).flatten

/-- Modelled from the spec: leg lengths of all cells in row-major reading
order, the leg of a cell being the number of cells strictly below it. -/
def legLengthList (l : List Nat) : List Nat :=
  (l.enum.map (fun p => (List.range p.2).map
    (fun j => (conjPart l).getD j 0 - p.1 - 1))).flatten

/-- Modelled from the spec: weighted size n(lambda), the sum of (i-1) times
the i-th part. -/
def weightedSize (l : List Nat) : Nat :=
  (l.enum.map (fun p => p.1 * p.2)).foldr (fun a b => a + b) 0

/-- Modelled from the spec: dominance order; l dominates m when both have
the same weight and every prefix sum of l is at least the matching prefix
sum of m. -/
def dominates (l m : List Nat) : Bool :=
  listSum l = listSum m &&
  (List.range (max l.length m.length)).all
    (fun i => listSum (m.take (i + 1)) ≤ listSum (l.take (i + 1)))

/-- Modelled from the spec: the list of all partitions of weight n with
parts bounded by cap, largest part first. -/
def partsLe : Nat → Nat → Nat → List (List Nat)
  | _, 0, _ => [[]]
  | 0, _ + 1, _ => []
  | fuel + 1, n + 1, cap =>
    (((List.range (min cap (n + 1))).map (fun i => i + 1)).reverse).map
      (fun k => (partsLe fuel (n + 1 - k) k).map (fun p => k :: p))
    |>.flatten

/-- Modelled from the spec: all partitions of weight n. -/
def partitionsOf (n : Nat) : List (List Nat) := partsLe n n n

/-- Remove duplicates from a list of naturals (keeping first occurrences). -/
def dedupNat : List Nat → List Nat
  | [] => []
  | x :: xs => if (dedupNat xs).contains x then dedupNat xs else x :: dedupNat xs

/-- Factorial. -/
def natFact : Nat → Nat
  | 0 => 1
  | n + 1 => (n + 1) * natFact n

/-- Modelled from the spec: the classical centralizer size of a partition,
the product of i^(m_i) * (m_i)! over the part multiplicities m_i. -/
def centralizerInt (l : List Nat) : Int :=
  Int.ofNat (l.foldr (fun a b => a * b) 1 *
    ((dedupNat l).map (fun i => natFact (l.count i))).foldr (fun a b => a * b) 1)

/-- Modelled from the spec: the (q,t)-deformed centralizer size
z_lambda(q,t) = z_lambda * prod over parts k of (1-q^k)/(1-t^k). -/
def centralizerQT (l : List Nat) : FQT :=
  ⟨qtMul (qtConst (centralizerInt l))
     (l.foldr (fun k acc => qtMul (qtSub qtOne (qtMonomial k 0 1)) acc) qtOne),
   l.foldr (fun k acc => qtMul (qtSub qtOne (qtMonomial 0 k 1)) acc) qtOne⟩

/-- Modelled from the spec: the t-specialized centralizer size
z_lambda(0,t) = z_lambda / prod over parts k of (1-t^k), the diagonal of
the t-deformed Hall pairing used by scalar_t. -/
def centralizerT (l : List Nat) : FQT :=
  ⟨qtConst (centralizerInt l),
   l.foldr (fun k acc => qtMul (qtSub qtOne (qtMonomial 0 k 1)) acc) qtOne⟩

/-- The structural scalar c1 from the source: the product over the cells of
the partition of (1 - q^(arm+1) * t^leg), iterated over the flattened arm
and leg length lists exactly as in the source. -/
def c1 (part : List Nat) : QT :=
  let arms := armLengthList part
  let legs := legLengthList part
  (List.range (listSum part)).foldl
    (fun acc i =>
      qtMul acc (qtSub qtOne (qtMonomial (arms.getD i 0 + 1) (legs.getD i 0) 1)))
    qtOne

/-- The structural scalar c2 from the source: the product over the cells of
the partition of (1 - q^arm * t^(leg+1)). -/
def c2 (part : List Nat) : QT :=
  let arms := armLengthList part
  let legs := legLengthList part
  (List.range (listSum part)).foldl
    (fun acc i =>
      qtMul acc (qtSub qtOne (qtMonomial (arms.getD i 0) (legs.getD i 0 + 1) 1)))
    qtOne

/-! Sparse symmetric-function elements.  An element of a basis is a sparse
map from partitions to scalars, stored as an association list sorted by a
fixed total order on partitions. -/

/-- A partition index. -/
abbrev Ptn := List Nat

/-- Lexicographic order on partition indices, used only to keep the sparse
maps in a canonical order. -/
def ptnLtB : Ptn → Ptn → Bool
  | [], [] => false
  | [], _ :: _ => true
  | _ :: _, [] => false
  | a :: as, b :: bs => a < b || (a = b && ptnLtB as bs)

/-- A sparse partition-indexed coefficient map. -/
abbrev SFMap := List (Ptn × FQT)

/-- Sorted-merge addition of sparse maps with explicit fuel, dropping
entries whose coefficients cancel. -/
def sfAddF : Nat → SFMap → SFMap → SFMap
  | _, [], ys => ys
  | _, x :: xs, [] => x :: xs
  | 0, xs, _ => xs
  | fuel + 1, (k1, a) :: xs, (k2, b) :: ys =>
    if ptnLtB k1 k2 then (k1, a) :: sfAddF fuel xs ((k2, b) :: ys)
    else if ptnLtB k2 k1 then (k2, b) :: sfAddF fuel ((k1, a) :: xs) ys
    else
      let c := fqtAdd a b
      if c.num = [] then sfAddF fuel xs ys else (k1, c) :: sfAddF fuel xs ys

/-- Addition of sparse maps. -/
def sfAdd (p r : SFMap) : SFMap := sfAddF (p.length + r.length) p r

/-- Scalar multiple of a sparse map. -/
def sfScale (c : FQT) (m : SFMap) : SFMap :=
  m.map (fun kv => (kv.1, fqtMul c kv.2))

/-- The basis element indexed by a single partition. -/
def sfSingle (l : Ptn) : SFMap := [(l, fqtOne)]

/-- Coefficient of a partition in a sparse map. -/
def sfCoeff (m : SFMap) (l : Ptn) : FQT :=
  match m.find? (fun kv => decide (kv.1 = l)) with
  | some kv => kv.2
  | none => fqtZero

/-- Field equality of sparse maps: the coefficients agree (by cross
multiplication) on every partition in either support. -/
def sfEqv (a b : SFMap) : Bool :=
  (a.map (fun kv => kv.1) ++ b.map (fun kv => kv.1)).all
    (fun l => fqtBeq (sfCoeff a l) (sfCoeff b l))

/-- Modelled from the spec: the generic linear extension of a map on basis
indices to sparse elements (the _apply_module_morphism helper of the
external algebra layer). -/
def applyModuleMorphism (f : Ptn → SFMap) (e : SFMap) : SFMap :=
  e.foldr (fun kv acc => sfAdd (sfScale kv.2 (f kv.1)) acc) []

/-- Modelled from the spec: the orthogonal bilinear pairing helper (the
_apply_multi_module_morphism helper with orthogonal=True): the diagonal
rule f is applied termwise on common support and cross terms vanish by
definition. -/
def applyMultiOrtho (f : Ptn → Ptn → FQT) (a b : SFMap) : FQT :=
  a.foldr
    (fun kv acc =>
      match b.find? (fun kv2 => decide (kv2.1 = kv.1)) with
      | some kv2 => fqtAdd (fqtMul (fqtMul kv.2 kv2.2) (f kv.1 kv.1)) acc
      | none => acc)
    fqtZero

/-! The nabla operator on the Ht basis. -/

/-- The nabla eigenvalue t^(n(lambda)) * q^(n(lambda conjugate)) attached
to a partition, as in the Ht-basis nabla method of the source. -/
def nablaEigen (l : Ptn) : FQT :=
  fqtOfQT (qtMonomial (weightedSize (conjPart l)) (weightedSize l) 1)

/-- The nabla operator on elements of the Ht basis: the linear extension of
the diagonal map sending the basis element of lambda to its eigenvalue
multiple, exactly as in the source. -/
def nablaHt (e : SFMap) : SFMap :=
  applyModuleMorphism (fun l => sfScale (nablaEigen l) (sfSingle l)) e

/-! Constructor parameter validation (the generic basis constructor). -/

/-- Python-level failures that the embedded routines can raise. -/
inductive PyErr where
  | valueError
  | nameError
  | typeError
deriving DecidableEq

/-- The six Macdonald basis families. -/
inductive Tag where
  | P
  | Q
  | J
  | H
  | Ht
  | S
deriving DecidableEq

/-- Outcome of the generic constructor parameter handling: which of q and t
were specialized, carrying the images of the supplied values in the base
ring. -/
inductive InitOutcome (b : Type) where
  | bothGeneric
  | qFixed (qv : b)
  | tFixed (tv : b)
  | bothFixed (qv tv : b)

/-- The parameter-validation phase of the generic basis constructor.  The
base ring is abstracted by its membership test mem (the Python test
v in R) and its coercion img (the Python conversion R(v)); the four
branches mirror the source: both parameters generic, only t supplied, only
q supplied, both supplied.  Validation happens before any coercion or
structure-constant table is touched; an invalid supplied value yields
ValueError immediately. -/
def genericInit {a b : Type} (mem : a → Bool) (img : a → b) :
    Option a → Option a → Except PyErr (InitOutcome b)
  | none, none => Except.ok InitOutcome.bothGeneric
  | some qv, none =>
    if mem qv then Except.ok (InitOutcome.qFixed (img qv))
    else Except.error PyErr.valueError
  | none, some tv =>
    if mem tv then Except.ok (InitOutcome.tFixed (img tv))
    else Except.error PyErr.valueError
  | some qv, some tv =>
    if !(mem tv) || !(mem qv) then Except.error PyErr.valueError
    else Except.ok (InitOutcome.bothFixed (img qv) (img tv))

/-- Each of the six basis constructors runs the shared generic constructor
on its (q, t) arguments as its first effectful step (the individual
classes only differ in name and prefix strings before delegating). -/
def mkMacdonaldBasis (_ : Tag) {a b : Type} (mem : a → Bool) (img : a → b)
    (qv tv : Option a) : Except PyErr (InitOutcome b) :=
  genericInit mem img qv tv

/-- The outcome expected on success: the supplied parameters are replaced
by their images in the ring. -/
def expectedInitOutcome {a b : Type} (img : a → b) :
    Option a → Option a → InitOutcome b
  | none, none => InitOutcome.bothGeneric
  | some qv, none => InitOutcome.qFixed (img qv)
  | none, some tv => InitOutcome.tFixed (img tv)
  | some qv, some tv => InitOutcome.bothFixed (img qv) (img tv)


/-! The reference algebra.  Modelled from the spec: the Schur, power-sum
and homogeneous bases with their multiplications and mutual changes of
basis are an externally supplied black box.  We realize them concretely by
monomial expansions: a symmetric function of degree n is represented by
its expansion in n variables, which is faithful for all partitions of
weight n, and the Schur and power-sum coordinates are recovered by leading
term elimination. -/

/-- An exponent vector of a monomial in a fixed number of variables. -/
abbrev Mon := List Nat

/-- A multivariate polynomial with fraction coefficients: association list
from exponent vectors to coefficients, sorted ascending in the
lexicographic order ptnLtB on exponent vectors. -/
abbrev Poly := List (Mon × FQT)

/-- Sorted-merge addition of polynomials with explicit fuel, dropping
cancelled terms (canonical numerator arithmetic makes the zero test
exact). -/
def polyAddF : Nat → Poly → Poly → Poly
  | _, [], ys => ys
  | _, x :: xs, [] => x :: xs
  | 0, xs, _ => xs
  | fuel + 1, (k1, a) :: xs, (k2, b) :: ys =>
    if ptnLtB k1 k2 then (k1, a) :: polyAddF fuel xs ((k2, b) :: ys)
    else if ptnLtB k2 k1 then (k2, b) :: polyAddF fuel ((k1, a) :: xs) ys
    else
      let c := fqtAdd a b
      if c.num = [] then polyAddF fuel xs ys else (k1, c) :: polyAddF fuel xs ys

/-- Addition of multivariate polynomials. -/
def polyAdd (p r : Poly) : Poly := polyAddF (p.length + r.length) p r

/-- The zero polynomial. -/
def polyZero : Poly := []

/-- The constant polynomial 1 in nv variables. -/
def polyOne (nv : Nat) : Poly := [(List.replicate nv 0, fqtOne)]

/-- Scalar multiple of a polynomial. -/
def polyScale (c : FQT) (p : Poly) : Poly :=
  p.map (fun kv => (kv.1, fqtMul c kv.2))

/-- Negation of a polynomial. -/
def polyNeg (p : Poly) : Poly := p.map (fun kv => (kv.1, fqtNeg kv.2))

/-- Subtraction of polynomials. -/
def polySub (p r : Poly) : Poly := polyAdd p (polyNeg r)

/-- Componentwise sum of exponent vectors (of equal length). -/
def monAdd (a b : Mon) : Mon := List.zipWith (fun x y => x + y) a b

/-- Multiplication of a polynomial by one monomial term. -/
def polyMonMul (m : Mon) (c : FQT) (p : Poly) : Poly :=
  p.map (fun kv => (monAdd m kv.1, fqtMul c kv.2))

/-- Multiplication of multivariate polynomials. -/
def polyMul (p r : Poly) : Poly :=
  p.foldr (fun kv acc => polyAdd (polyMonMul kv.1 kv.2 r) acc) []

/-- Coefficient of a monomial in a polynomial. -/
def polyCoeff (p : Poly) (m : Mon) : FQT :=
  match p.find? (fun kv => decide (kv.1 = m)) with
  | some kv => kv.2
  | none => fqtZero

/-- All exponent vectors of a given length with a given total degree. -/
def expVecs : Nat → Nat → List (List Nat)
  | 0, 0 => [[]]
  | 0, _ + 1 => []
  | nv + 1, k =>
    ((List.range (k + 1)).map
      (fun i => (expVecs nv (k - i)).map (fun v => i :: v))).flatten

/-- Restore canonical sorted form of a term list. -/
def polyCanon (p : List (Mon × FQT)) : Poly :=
  p.foldr (fun kv acc => polyAdd [kv] acc) []

/-- The complete homogeneous symmetric polynomial of degree k in nv
variables: the sum of all monomials of degree k. -/
def hPoly (nv k : Nat) : Poly :=
  polyCanon ((expVecs nv k).map (fun v => (v, fqtOne)))

/-- Homogeneous symmetric polynomial with an integer degree argument:
degree below zero gives zero (empty Jacobi-Trudi entries), degree zero
gives one. -/
def hPolyInt (nv : Nat) (z : Int) : Poly :=
  if z < 0 then polyZero else hPoly nv z.toNat

/-- The exponent vector with value k in position i and zero elsewhere. -/
def oneHot (nv i k : Nat) : List Nat :=
  (List.range nv).map (fun j => if j = i then k else 0)

/-- The power sum polynomial of degree k in nv variables. -/
def pPow (nv k : Nat) : Poly :=
  polyCanon ((List.range nv).map (fun i => (oneHot nv i k, fqtOne)))

/-- The power sum polynomial indexed by a partition: the product of the
power sums of its parts. -/
def pProd (nv : Nat) (l : Ptn) : Poly :=
  l.foldr (fun k acc => polyMul (pPow nv k) acc) (polyOne nv)

/-- Determinant of a square matrix of polynomials by Laplace expansion
along the first row, with fuel equal to the matrix size. -/
def detPoly (nv : Nat) : Nat → List (List Poly) → Poly
  | _, [] => polyOne nv
  | 0, _ => polyZero
  | fuel + 1, row :: rest =>
    (row.enum.map
      (fun p =>
        let d := detPoly nv fuel (rest.map (fun r => r.eraseIdx p.1))
        let s := polyMul p.2 d
        if p.1 % 2 = 0 then s else polyNeg s)).foldr polyAdd []

/-- The Schur polynomial of a partition in nv variables, by the
Jacobi-Trudi determinant over complete homogeneous polynomials. -/
def schurPoly (nv : Nat) (l : Ptn) : Poly :=
  let ll := l.length
  detPoly nv ll
    ((List.range ll).map (fun i =>
      (List.range ll).map (fun j =>
        hPolyInt nv (((l.getD i 0 : Nat) : Int) - (i : Int) + (j : Int)))))

/-- Insertion of a value into a weakly decreasing list. -/
def insertDesc (x : Nat) : List Nat → List Nat
  | [] => [x]
  | y :: ys => if y < x then x :: y :: ys else y :: insertDesc x ys

/-- Sort a list weakly decreasing by insertion. -/
def sortDesc (l : List Nat) : List Nat := l.foldr insertDesc []

/-- The partition read off an exponent vector: sort weakly decreasing and
drop zero parts. -/
def monToPtn (m : Mon) : Ptn :=
  (sortDesc m).filter (fun x => decide (0 < x))

/-- Total degree bound of a polynomial. -/
def polyDeg (p : Poly) : Nat :=
  p.foldr (fun kv acc => max (listSum kv.1) acc) 0

/-- Schur coordinates of a symmetric polynomial by leading-term
elimination: repeatedly strip the lexicographically largest monomial,
whose exponent vector is the dominant partition of the remaining support
and appears in its Schur polynomial with coefficient one. -/
def toSchurF (nv : Nat) : Nat → Poly → SFMap
  | 0, _ => []
  | fuel + 1, p =>
    match p.getLast? with
    | none => []
    | some kv =>
      let lam := monToPtn kv.1
      sfAdd [(lam, kv.2)]
        (toSchurF nv fuel (polySub p (polyScale kv.2 (schurPoly nv lam))))

/-- Generous fuel for the eliminations: more than the number of monomials
of the given degree in the given number of variables. -/
def elimFuel (nv d : Nat) : Nat := (d + 1) ^ nv + 1

/-- Schur coordinates of a symmetric polynomial. -/
def toSchur (nv : Nat) (p : Poly) : SFMap := toSchurF nv (elimFuel nv (polyDeg p)) p

/-- Power-sum coordinates by trailing-term elimination: repeatedly strip
the lexicographically smallest monomial, which is the sorted-ascending
orbit representative of the least dominant partition in the support and
appears in its power-sum product with a nonzero integer coefficient. -/
def toPowF (nv : Nat) : Nat → Poly → SFMap
  | 0, _ => []
  | fuel + 1, p =>
    match p.head? with
    | none => []
    | some kv =>
      let lam := monToPtn kv.1
      let b := fqtDiv kv.2 (polyCoeff (pProd nv lam) kv.1)
      sfAdd [(lam, b)]
        (toPowF nv fuel (polySub p (polyScale b (pProd nv lam))))

/-- Power-sum coordinates of a symmetric polynomial. -/
def toPow (nv : Nat) (p : Poly) : SFMap := toPowF nv (elimFuel nv (polyDeg p)) p

/-- Power-sum expansion of one Schur function. -/
def schurToP (l : Ptn) : SFMap := toPow (listSum l) (schurPoly (listSum l) l)

/-- Schur expansion of one power-sum function. -/
def powToSchur (l : Ptn) : SFMap := toSchur (listSum l) (pProd (listSum l) l)

/-! The to-Schur expansion rules of the S, J, Ht and H bases, translated
from the _to_s methods of the source. -/

/-- The product over the parts k of a partition of (1 - t^k). -/
def oneMinusTPowProd (l : Ptn) : QT :=
  l.foldr (fun k acc => qtMul (qtSub qtOne (qtMonomial 0 k 1)) acc) qtOne

/-- The to-Schur rule of the S basis: expand the Schur function of the
index into power sums, scale the coefficient of each power sum p_mu by the
product over the parts k of mu of (1 - t^k), and expand back into Schur
functions. -/
def sBasisToS (part : Ptn) : SFMap :=
  let px := schurToP part
  let scaled : SFMap :=
    px.map (fun kv => (kv.1, fqtMul kv.2 (fqtOfQT (oneMinusTPowProd kv.1))))
  applyModuleMorphism powToSchur scaled

/-- Zero-pad a partition on the right to length k (a no-op when the
partition is already at least that long), as the helper of the source does
before its length check. -/
def padTo (k : Nat) (p : Ptn) : Ptn := p ++ List.replicate (k - p.length) 0

/-- The k by k matrix of the determinant creation operator over the
homogeneous symmetric functions, from the helper of the source: the entry
in row i and column j is zero for j below max(0, i-1-part[i]) and
otherwise (1 - q^(part[i]+j-i+1) t^(k-j-1)) times the homogeneous function
of degree part[i]+j-i+1. -/
def creationMatrix (nv k : Nat) (padded : List Nat) : List (List Poly) :=
  (List.range k).map (fun i =>
    let pi := padded.getD i 0
    let start := ((i : Int) + 1 - 2 - (pi : Int)).toNat
    (List.range k).map (fun j =>
      if j < start then polyZero
      else
        let value : Int := (pi : Int) + (j : Int) - (i : Int) + 1
        polyScale
          (fqtOfQT (qtSub qtOne (qtMonomial value.toNat (k - (j + 1)) 1)))
          (hPolyInt nv value)))

/-- The determinant pipeline of the creation helper: form the k by k
matrix over the homogeneous functions for an already padded partition,
take its determinant, and convert the result to Schur coordinates (the
source then reinterprets those Schur coordinates as S-basis coordinates
verbatim). -/
def creationDetPipeline (k : Nat) (padded : Ptn) : SFMap :=
  let nv := listSum padded + k
  toSchur nv (detPoly nv k (creationMatrix nv k padded))

/-- The creation helper of the source: first the index partition is padded
with zeros up to length k, then the length of the (padded) list is checked
against k, raising ValueError when it is too long, and otherwise the
determinant pipeline runs on the padded partition. -/
def creationHelperS (k : Nat) (part : Ptn) : Except PyErr SFMap :=
  let padded := padTo k part
  if k < padded.length then Except.error PyErr.valueError
  else Except.ok (creationDetPipeline k padded)

/-- The creation operator on an S-basis element: the linear extension of
the creation helper over the support; a ValueError raised for any support
partition aborts the whole computation. -/
def creationS (e : SFMap) (k : Nat) : Except PyErr SFMap :=
  e.foldr
    (fun kv acc =>
      match creationHelperS k kv.1, acc with
      | Except.ok r, Except.ok rest => Except.ok (sfAdd (sfScale kv.2 r) rest)
      | Except.error err, _ => Except.error err
      | _, Except.error err => Except.error err)
    (Except.ok [])

/-- The image of the full creation operator on a padded-to-k result fold,
used to state what the ok branch of creation computes. -/
def creationAll (e : SFMap) (k : Nat) : SFMap :=
  e.foldr
    (fun kv acc => sfAdd (sfScale kv.2 (creationDetPipeline k (padTo k kv.1))) acc)
    []

/-- The omega automorphism restricted to Schur-indexed coefficient dicts as
the source implements it: replace every index by its conjugate partition
(a linear extension over the support). -/
def omegaQtInSchurs (e : SFMap) : SFMap :=
  applyModuleMorphism (fun l => sfSingle (conjPart l)) e

/-- Exchange q and t in every coefficient of an element. -/
def sfSwapQT (e : SFMap) : SFMap := e.map (fun kv => (kv.1, fqtSwap kv.2))

/-- Substitute t by 1/t in every coefficient of an element. -/
def sfFlipT (e : SFMap) : SFMap := e.map (fun kv => (kv.1, fqtFlipT kv.2))

/-- The chain of creation operators seeding the J basis: starting from the
S-basis unit, apply creation for every part of the partition, smallest
part first (the source iterates over the reversed partition). -/
def jCreationChain (part : Ptn) : Except PyErr SFMap :=
  part.reverse.foldl
    (fun acc k =>
      match acc with
      | Except.error e => Except.error e
      | Except.ok r => creationS r k)
    (Except.ok [([], fqtOne)])

/-- The to-Schur rule of the J basis: run the creation chain, apply the
omega automorphism on the Schur-reinterpreted coordinates, and exchange q
and t in all coefficients.  The creation chain never raises on a partition
(each step adds a new largest part); a hypothetical failure is mapped to
the zero element. -/
def jToS (part : Ptn) : SFMap :=
  match jCreationChain part with
  | Except.error _ => []
  | Except.ok r => sfSwapQT (omegaQtInSchurs r)

/-- Modelled from the spec: the t-specialized Hall pairing scalar_t of the
external algebra layer pairs two power-sum expansions orthogonally with
the diagonal z_lambda(0,t). -/
def scalarT (a b : SFMap) : FQT :=
  applyMultiOrtho (fun l _ => centralizerT l) a b

/-- The power-sum expansion of a J basis element of index part, through
its Schur expansion. -/
def jIdxToP (part : Ptn) : SFMap := applyModuleMorphism schurToP (jToS part)

/-- The to-Schur rule of the Ht basis before the final substitution: the
sum over all partitions p of the same weight of scalar_t(J(part), s(p))
times s(p). -/
def htToSRaw (part : Ptn) : SFMap :=
  let jp := jIdxToP part
  (partitionsOf (listSum part)).foldr
    (fun p acc => sfAdd (sfScale (scalarT jp (schurToP p)) (sfSingle p)) acc)
    []

/-- The to-Schur rule of the Ht basis: substitute t by 1/t in the raw
expansion and multiply by t to the weighted size of the index. -/
def htToS (part : Ptn) : SFMap :=
  sfScale (fqtOfQT (qtMonomial 0 (weightedSize part) 1)) (sfFlipT (htToSRaw part))

/-- The to-Schur rule of the H basis: take the Schur expansion of the Ht
element of the same index, substitute t by 1/t, and multiply by t to the
weighted size of the index. -/
def hToS (part : Ptn) : SFMap :=
  sfScale (fqtOfQT (qtMonomial 0 (weightedSize part) 1)) (sfFlipT (htToS part))

/-- Lower triangularity with nonzero diagonal of a direct to-Schur rule at
weight n: every row has a nonzero diagonal coefficient, and a nonzero
off-diagonal coefficient appears only at columns dominated by the row
index. -/
def diagNonzeroLowerTriB (f : Ptn → SFMap) (n : Nat) : Bool :=
  (partitionsOf n).all (fun l =>
    (!(fqtIsZero (sfCoeff (f l) l)))
    && (partitionsOf n).all (fun m => dominates l m || fqtIsZero (sfCoeff (f l) m)))

/-! Inversion of the materialized tables.  Modelled from the spec: the
inverter produces, degree by degree, the table inverse to the direct
to-Schur table, so that composing the two yields the identity; we realize
the contract by exact adjugate inversion over the scalar field. -/

/-- Determinant of a square matrix of scalars by Laplace expansion along
the first row, with fuel equal to the matrix size. -/
def detF : Nat → List (List FQT) → FQT
  | _, [] => fqtOne
  | 0, _ => fqtZero
  | fuel + 1, row :: rest =>
    (row.enum.map
      (fun p =>
        let d := detF fuel (rest.map (fun r => r.eraseIdx p.1))
        let s := fqtMul p.2 d
        if p.1 % 2 = 0 then s else fqtNeg s)).foldr fqtAdd fqtZero

/-- The minor of a matrix with row i and column j removed. -/
def minorMat (m : List (List FQT)) (i j : Nat) : List (List FQT) :=
  (m.eraseIdx i).map (fun r => r.eraseIdx j)

/-- Matrix inverse by the adjugate formula. -/
def matInvF (m : List (List FQT)) : List (List FQT) :=
  let n := m.length
  let d := detF n m
  (List.range n).map (fun i =>
    (List.range n).map (fun j =>
      let cof := detF n (minorMat m j i)
      fqtDiv (if (i + j) % 2 = 0 then cof else fqtNeg cof) d))

/-- The direct table of a to-Schur rule at weight n as a matrix over the
partitions of n. -/
def tableMatrix (f : Ptn → SFMap) (n : Nat) : List (List FQT) :=
  (partitionsOf n).map (fun l => (partitionsOf n).map (fun m => sfCoeff (f l) m))

/-- Repackage one matrix row as a sparse element over the given partition
list. -/
def rowToMap (ps : List Ptn) (row : List FQT) : SFMap :=
  (ps.zip row).foldr (fun kv acc => sfAdd [(kv.1, kv.2)] acc) []

/-- Conversion of a Schur-basis element into the basis with direct rule f:
each Schur index of weight n is replaced by the matching row of the
inverse of the weight-n table. -/
def schurIntoBasis (f : Ptn → SFMap) (e : SFMap) : SFMap :=
  applyModuleMorphism
    (fun mu =>
      let ps := partitionsOf (listSum mu)
      let inv := matInvF (tableMatrix f (listSum mu))
      match ps.findIdx? (fun x => decide (x = mu)) with
      | some i => rowToMap ps (inv.getD i [])
      | none => [])
    e

/-! The omega_qt automorphism on the S basis: the override of the source
against the generic power-sum route. -/

/-- The override in the source: conjugate the Schur-reinterpreted indices
and convert the resulting Schur element back into the S basis. -/
def omegaQtSOverride (e : SFMap) : SFMap :=
  schurIntoBasis sBasisToS (omegaQtInSchurs e)

/-- The scaling factor of the generic omega_qt on the power sum indexed by
a partition: (-1)^(weight - length) times the product over the parts k of
(1 - q^k)/(1 - t^k). -/
def omegaQtFactor (l : Ptn) : FQT :=
  fqtMul
    (if (listSum l - l.length) % 2 = 0 then fqtOne else fqtNeg fqtOne)
    (l.foldr
      (fun k acc =>
        fqtMul ⟨qtSub qtOne (qtMonomial k 0 1), qtSub qtOne (qtMonomial 0 k 1)⟩ acc)
      fqtOne)

/-- The power-sum expansion of an S-basis element. -/
def sElementToP (e : SFMap) : SFMap :=
  applyModuleMorphism (fun l => applyModuleMorphism schurToP (sBasisToS l)) e

/-- Conversion of a power-sum element back into the S basis through the
Schur basis. -/
def pIntoSBasis (e : SFMap) : SFMap :=
  schurIntoBasis sBasisToS (applyModuleMorphism powToSchur e)

/-- The generic omega_qt applied to an S-basis element: expand into power
sums, scale each power sum by the omega factor, and convert back into the
S basis. -/
def omegaQtSGeneric (e : SFMap) : SFMap :=
  pIntoSBasis
    (applyModuleMorphism (fun l => sfScale (omegaQtFactor l) (sfSingle l))
      (sElementToP e))

/-! The scalar_qt dispatch of the element classes. -/

/-- An element of one of the six Macdonald bases: the basis tag together
with the sparse coefficients. -/
structure McdElt where
  tag : Tag
  coeffs : SFMap

/-- The specialized P-against-P diagonal of the source (scalar_qt_basis):
zero off the diagonal and c1/c2 on it. -/
def scalarQtBasisP (l m : Ptn) : FQT :=
  if l ≠ m then fqtZero else fqtDiv (fqtOfQT (c1 l)) (fqtOfQT (c2 l))

/-- Power-sum expansion of an element of any of the six bases, through the
coercion paths registered by the constructors: P and Q scale diagonally
into J (by one over c2 and one over c1 respectively), J, H, Ht and S
expand through their direct to-Schur tables, and Schur expansions convert
to power sums in the reference algebra. -/
def toPowerSum : Tag → SFMap → SFMap
  | Tag.J, e => applyModuleMorphism jIdxToP e
  | Tag.P, e =>
    applyModuleMorphism (fun l => sfScale (fqtInv (fqtOfQT (c2 l))) (jIdxToP l)) e
  | Tag.Q, e =>
    applyModuleMorphism (fun l => sfScale (fqtInv (fqtOfQT (c1 l))) (jIdxToP l)) e
  | Tag.H, e => applyModuleMorphism (fun l => applyModuleMorphism schurToP (hToS l)) e
  | Tag.Ht, e => applyModuleMorphism (fun l => applyModuleMorphism schurToP (htToS l)) e
  | Tag.S, e => applyModuleMorphism (fun l => applyModuleMorphism schurToP (sBasisToS l)) e

/-- The generic scalar_qt route: expand both operands into power sums and
pair orthogonally with the diagonal z_lambda(q,t). -/
def genericScalarQt (x y : McdElt) : FQT :=
  applyMultiOrtho (fun l _ => centralizerQT l)
    (toPowerSum x.tag x.coeffs) (toPowerSum y.tag y.coeffs)

/-- The scalar_qt dispatch of the source, by the runtime class of the two
operands.  A P-basis receiver pairs two P elements with the c1/c2
diagonal, delegates to the Q route when the argument is a Q element, and
otherwise reaches the line super(Element, self).scalar_qt(self, x): under
Python 2 scoping the bare name Element is neither local nor global there,
so that line raises NameError.  A Q-basis receiver pairs against a P
element with the constant-one diagonal and otherwise calls the generic
route through an explicit unbound class reference, which works.  A J-basis
receiver pairs two J elements with the c1 x c2 diagonal; its fallback
calls the inherited bound method with self passed again as an extra
positional argument, which raises TypeError.  Elements of H, Ht and S use
the generic route directly. -/
def scalarQt (x y : McdElt) : Except PyErr FQT :=
  match x.tag with
  | Tag.P =>
    if y.tag = Tag.P then
      Except.ok (applyMultiOrtho scalarQtBasisP x.coeffs y.coeffs)
    else if y.tag = Tag.Q then
      Except.ok (applyMultiOrtho (fun _ _ => fqtOne) y.coeffs x.coeffs)
    else Except.error PyErr.nameError
  | Tag.Q =>
    if y.tag = Tag.P then
      Except.ok (applyMultiOrtho (fun _ _ => fqtOne) x.coeffs y.coeffs)
    else Except.ok (genericScalarQt x y)
  | Tag.J =>
    if y.tag = Tag.J then
      Except.ok
        (applyMultiOrtho (fun l m => fqtMul (fqtOfQT (c1 l)) (fqtOfQT (c2 m)))
          x.coeffs y.coeffs)
    else Except.error PyErr.typeError
  | _ => Except.ok (genericScalarQt x y)

/-- The J-into-P coercion registered by the P constructor: the diagonal
module morphism sending J(l) to c2(l) P(l). -/
def jIntoP (e : SFMap) : SFMap :=
  applyModuleMorphism (fun l => sfScale (fqtOfQT (c2 l)) (sfSingle l)) e

/-- The P-into-J coercion (the inverse of the diagonal morphism above):
P(l) maps to (1/c2(l)) J(l). -/
def pIntoJ (e : SFMap) : SFMap :=
  applyModuleMorphism (fun l => sfScale (fqtInv (fqtOfQT (c2 l))) (sfSingle l)) e

/-- The P-into-Q coercion registered by the Q constructor: the diagonal
module morphism with diagonal scalar_qt_basis, sending P(l) to
(c1(l)/c2(l)) Q(l). -/
def pIntoQ (e : SFMap) : SFMap :=
  applyModuleMorphism (fun l => sfScale (scalarQtBasisP l l) (sfSingle l)) e

/-- The Q-into-P coercion (the inverse diagonal): Q(l) maps to
(c2(l)/c1(l)) P(l). -/
def qIntoP (e : SFMap) : SFMap :=
  applyModuleMorphism (fun l => sfScale (fqtInv (scalarQtBasisP l l)) (sfSingle l)) e

/-! Semantic coefficient functions, used to reason about the polynomial
arithmetic at arbitrary (symbolic) partitions. -/

/-- Sum of a list of integers. -/
def intSum (l : List Int) : Int := l.foldr (fun a b => a + b) 0

/-- The coefficient of a given exponent pair in a term list (summing over
all matching terms, so it is meaningful for non-canonical lists too). -/
def qtCoeffAt (k : Nat × Nat) (p : QT) : Int :=
  p.foldr (fun x acc => (if x.1 = k then x.2 else 0) + acc) 0

/-- Semantic equality of fractions: the cross products have the same
coefficient at every exponent pair. -/
def fqtEqSem (x y : FQT) : Prop :=
  ∀ k, qtCoeffAt k (qtMul x.num y.den) = qtCoeffAt k (qtMul y.num x.den)

/-- Semantic equality of sparse elements: the coefficients are semantically
equal fractions at every partition. -/
def sfEqSem (a b : SFMap) : Prop :=
  ∀ l, fqtEqSem (sfCoeff a l) (sfCoeff b l)

/-- The fraction 1/(1-t). -/
def oneOverOneMinusT : FQT := ⟨qtOne, [((0, 0), 1), ((0, 1), -1)]⟩

/-- The fraction (1-q)/(1-t). -/
def oneMinusQOverOneMinusT : FQT :=
  ⟨[((0, 0), 1), ((1, 0), -1)], [((0, 0), 1), ((0, 1), -1)]⟩

end Mcd

namespace Mcd

/-- The spec asserts the value qt - q - t + 1 for c1 at the partition
(1,1); this is that polynomial in canonical form. -/
def specClaimedC1Val : QT := [((0, 0), 1), ((0, 1), -1), ((1, 0), -1), ((1, 1), 1)]

/-- The value of c1 at (1,1) actually computed by the source,
q^2 t - q t - q + 1, in canonical form. -/
def actualC1Val : QT := [((0, 0), 1), ((1, 0), -1), ((1, 1), -1), ((2, 1), 1)]

/-- The value of c2 at (1,1), t^3 - t^2 - t + 1, in canonical form. -/
def actualC2Val : QT := [((0, 0), 1), ((0, 1), -1), ((0, 2), -1), ((0, 3), 1)]

end Mcd

namespace Mcd

/-- C7 counterexample: the code computes c1([1,1]) = (1-qt)(1-q)
= q^2 t - q t - q + 1, which is not the polynomial qt - q - t + 1 stated
by the claim. -/
theorem claimC7_counterexample : ¬ (c1 [1, 1] = specClaimedC1Val) := by decide

/-- C7 amended: at the partition (1,1) the structural scalars of the source
evaluate to c1([1,1]) = q^2 t - q t - q + 1 and
c2([1,1]) = t^3 - t^2 - t + 1, where c1 is the product over cells of
(1 - q^(arm+1) t^leg) and c2 the product over cells of
(1 - q^arm t^(leg+1)). -/
theorem claimC7_amended :
    c1 [1, 1] = actualC1Val ∧ c2 [1, 1] = actualC2Val := by decide

/-! Small algebraic helper lemmas about the canonical representations. -/

/-- Merging with the empty polynomial on the right is the identity. -/
theorem qtAddF_nil_right (fuel : Nat) (p : QT) : qtAddF fuel p [] = p := by
  cases p <;> cases fuel <;> rfl

/-- Adding the zero polynomial on the right is the identity. -/
theorem qtAdd_nil_right (p : QT) : qtAdd p [] = p := by
  simp [qtAdd, qtAddF_nil_right]

/-- Multiplying by the unit monomial is the identity. -/
theorem qtMonMul_one (p : QT) : qtMonMul (0, 0) 1 p = p := by
  induction p with
  | nil => rfl
  | cons x xs ih =>
    obtain ⟨⟨a, b⟩, c⟩ := x
    simp_all [qtMonMul]

/-- One is a left unit for polynomial multiplication. -/
theorem qtMul_one_left (p : QT) : qtMul qtOne p = p := by
  show qtAdd (qtMonMul (0, 0) 1 p) [] = p
  rw [qtMonMul_one, qtAdd_nil_right]

/-- One is a left unit for fraction multiplication. -/
theorem fqtMul_one_left (x : FQT) : fqtMul fqtOne x = x := by
  cases x
  simp [fqtMul, fqtOne, qtMul_one_left]

/-- Scaling a sparse map by one is the identity. -/
theorem sfScale_one (m : SFMap) : sfScale fqtOne m = m := by
  simp [sfScale, fqtMul_one_left]

/-- Merging with the empty sparse map on the right is the identity. -/
theorem sfAddF_nil_right (fuel : Nat) (m : SFMap) : sfAddF fuel m [] = m := by
  cases m <;> cases fuel <;> rfl

/-- Adding the zero sparse map on the right is the identity. -/
theorem sfAdd_nil_right (m : SFMap) : sfAdd m [] = m := by
  simp [sfAdd, sfAddF_nil_right]

/-- The linear extension of a rule evaluated on a basis element gives the
rule itself. -/
theorem applyModuleMorphism_single (f : Ptn → SFMap) (l : Ptn) :
    applyModuleMorphism f (sfSingle l) = f l := by
  simp [applyModuleMorphism, sfSingle, sfScale_one, sfAdd_nil_right]

/-- C6: the nabla operator acts diagonally on the Ht basis, sending the
basis element of lambda to t^(n(lambda)) q^(n(lambda conjugate)) times
itself, and on the sum of all Ht basis elements of weight 3 it returns
t^3 Ht(1,1,1) + q t Ht(2,1) + q^3 Ht(3). -/
theorem claimC6_nabla :
    (∀ l : Ptn, IsPartition l →
        nablaHt (sfSingle l) = sfScale (nablaEigen l) (sfSingle l))
    ∧ nablaHt ((partitionsOf 3).foldr (fun p acc => sfAdd (sfSingle p) acc) [])
      = [([1, 1, 1], ⟨[((0, 3), 1)], qtOne⟩), ([2, 1], ⟨[((1, 1), 1)], qtOne⟩),
         ([3], ⟨[((3, 0), 1)], qtOne⟩)] := by
  constructor
  · intro l _
    simp [nablaHt, applyModuleMorphism_single]
  · decide

/-- Witness for C6 at the concrete partition (2,1). -/
theorem claimC6_nabla_witness :
    IsPartition [2, 1]
    ∧ nablaHt (sfSingle [2, 1]) = sfScale (nablaEigen [2, 1]) (sfSingle [2, 1]) :=
  ⟨by decide, claimC6_nabla.1 [2, 1] (by decide)⟩

/-- C8: for every base ring (abstracted by its membership test and its
coercion) and every one of the six basis constructors, supplying a value of
q or t that fails the membership test makes the shared generic constructor
return ValueError immediately, before anything else is built; when every
supplied value passes, construction succeeds and the stored parameters are
the ring images of the supplied values. -/
theorem claimC8_paramDomain (tag : Tag) {a b : Type} (mem : a → Bool)
    (img : a → b) (qv tv : Option a) :
    ((∃ v, (qv = some v ∨ tv = some v) ∧ mem v = false) →
        mkMacdonaldBasis tag mem img qv tv = Except.error PyErr.valueError)
    ∧ ((∀ v, qv = some v ∨ tv = some v → mem v = true) →
        mkMacdonaldBasis tag mem img qv tv
          = Except.ok (expectedInitOutcome img qv tv)) := by
  constructor
  · rintro ⟨v, hv, hm⟩
    cases qv with
    | none =>
      cases tv with
      | none => rcases hv with h | h <;> exact absurd h (by simp)
      | some t0 =>
        have hvt : v = t0 := by
          rcases hv with h | h
          · exact absurd h (by simp)
          · exact (Option.some.inj h).symm
        subst hvt
        simp [mkMacdonaldBasis, genericInit, hm]
    | some q0 =>
      cases tv with
      | none =>
        have hvq : v = q0 := by
          rcases hv with h | h
          · exact (Option.some.inj h).symm
          · exact absurd h (by simp)
        subst hvq
        simp [mkMacdonaldBasis, genericInit, hm]
      | some t0 =>
        rcases hv with h | h
        · have hvq : v = q0 := (Option.some.inj h).symm
          subst hvq
          simp [mkMacdonaldBasis, genericInit, hm]
        · have hvt : v = t0 := (Option.some.inj h).symm
          subst hvt
          simp [mkMacdonaldBasis, genericInit, hm]
  · intro hall
    cases qv with
    | none =>
      cases tv with
      | none => rfl
      | some t0 =>
        simp [mkMacdonaldBasis, genericInit, expectedInitOutcome,
          hall t0 (Or.inr rfl)]
    | some q0 =>
      cases tv with
      | none =>
        simp [mkMacdonaldBasis, genericInit, expectedInitOutcome,
          hall q0 (Or.inl rfl)]
      | some t0 =>
        simp [mkMacdonaldBasis, genericInit, expectedInitOutcome,
          hall q0 (Or.inl rfl), hall t0 (Or.inr rfl)]

/-- Witness for C8: supplying q = 7 to a ring that only contains values
below 5 makes the P constructor fail with ValueError. -/
theorem claimC8_paramDomain_witness :
    (∃ v, ((some 7 : Option Nat) = some v ∨ (none : Option Nat) = some v)
        ∧ (fun x : Nat => decide (x < 5)) v = false)
    ∧ mkMacdonaldBasis Tag.P (fun x : Nat => decide (x < 5))
        (fun x : Nat => x + 1) (some 7) none = Except.error PyErr.valueError :=
  ⟨⟨7, Or.inl rfl, by decide⟩,
   (claimC8_paramDomain Tag.P (fun x : Nat => decide (x < 5))
       (fun x : Nat => x + 1) (some 7) none).1 ⟨7, Or.inl rfl, by decide⟩⟩

set_option maxRecDepth 100000

set_option maxHeartbeats 4000000

/-- The J-basis direct to-Schur table is lower-triangular under dominance
with a nonzero diagonal at every partition, checked degree by degree for
every degree up to 4 (the statement for unbounded degree is the Macdonald
triangularity theorem and is not derived here). -/
theorem validation_jToS_lowerTri_low_degrees :
    ((List.range 5).all (fun n => diagNonzeroLowerTriB jToS n)) = true := by
  decide

/-- C2: the scalar_qt of a P-basis element P(l) against a Q-basis element
Q(m), which the source dispatches through the specialized Q-against-P
constant-one diagonal pairing, is 1 when l = m and 0 otherwise. -/
theorem claimC2_duality (l m : Ptn) (_hl : IsPartition l) (_hm : IsPartition m)
    (_hw : listSum l = listSum m) :
    scalarQt ⟨Tag.P, sfSingle l⟩ ⟨Tag.Q, sfSingle m⟩
      = Except.ok (if l = m then fqtOne else fqtZero) := by
  show Except.ok (applyMultiOrtho (fun _ _ => fqtOne) (sfSingle m) (sfSingle l))
      = Except.ok (if l = m then fqtOne else fqtZero)
  congr 1
  by_cases h : l = m
  · rw [if_pos h]
    show (match List.find? (fun kv2 => decide (kv2.1 = m)) (sfSingle l) with
      | some kv2 => fqtAdd (fqtMul (fqtMul fqtOne kv2.2) fqtOne) fqtZero
      | none => fqtZero) = fqtOne
    rw [show List.find? (fun kv2 => decide (kv2.1 = m)) (sfSingle l)
        = some (l, fqtOne) from by simp [sfSingle, h]]
    show fqtAdd (fqtMul (fqtMul fqtOne fqtOne) fqtOne) fqtZero = fqtOne
    decide
  · simp [applyMultiOrtho, sfSingle, h]

/-- Witness for C2 at the pair of distinct partitions (2) and (1,1) of
weight 2. -/
theorem claimC2_duality_witness :
    (IsPartition [2] ∧ IsPartition [1, 1] ∧ listSum [2] = listSum [1, 1])
    ∧ scalarQt ⟨Tag.P, sfSingle [2]⟩ ⟨Tag.Q, sfSingle [1, 1]⟩
      = Except.ok (if ([2] : Ptn) = [1, 1] then fqtOne else fqtZero) :=
  ⟨⟨by decide, by decide, by decide⟩,
   claimC2_duality [2] [1, 1] (by decide) (by decide) (by decide)⟩

/-- C4: evaluating the fallback branches of the scalar_qt dispatch shows
the failure of the generic fallback for P and J receivers: the P fallback
line raises NameError (the bare name Element is unresolved there under
Python 2 scoping) and the J fallback raises TypeError (self is passed a
second time to the bound inherited method), instead of returning the
generic power-sum value. -/
theorem claimC4_fallback_raises :
    scalarQt ⟨Tag.P, sfSingle [2]⟩ ⟨Tag.H, sfSingle [2]⟩
      = Except.error PyErr.nameError
    ∧ scalarQt ⟨Tag.J, sfSingle [2]⟩ ⟨Tag.H, sfSingle [2]⟩
      = Except.error PyErr.typeError :=
  ⟨rfl, rfl⟩

/-- The padded partition has length the maximum of k and the original
length. -/
theorem padTo_length (k : Nat) (p : Ptn) : (padTo k p).length = max k p.length := by
  simp [padTo]
  omega

/-- The creation helper raises ValueError on a partition longer than k. -/
theorem creationHelperS_err (k : Nat) (p : Ptn) (h : k < p.length) :
    creationHelperS k p = Except.error PyErr.valueError := by
  unfold creationHelperS
  rw [if_pos]
  rw [padTo_length]
  omega

/-- The creation helper succeeds on a partition of length at most k and
runs the determinant pipeline on the zero-padded partition. -/
theorem creationHelperS_ok (k : Nat) (p : Ptn) (h : p.length ≤ k) :
    creationHelperS k p = Except.ok (creationDetPipeline k (padTo k p)) := by
  unfold creationHelperS
  rw [if_neg]
  rw [padTo_length]
  omega

/-- The creation helper can only fail with ValueError. -/
theorem creationHelperS_err_shape (k : Nat) (p : Ptn) (err : PyErr)
    (h : creationHelperS k p = Except.error err) : err = PyErr.valueError := by
  unfold creationHelperS at h
  by_cases hc : k < (padTo k p).length
  · rw [if_pos hc] at h
    exact (Except.error.inj h).symm
  · rw [if_neg hc] at h
    exact absurd h (by simp)

/-- Unfolding the creation operator over a cons cell. -/
theorem creationS_cons (kv : Ptn × FQT) (rest : SFMap) (k : Nat) :
    creationS (kv :: rest) k =
      match creationHelperS k kv.1, creationS rest k with
      | Except.ok r, Except.ok acc => Except.ok (sfAdd (sfScale kv.2 r) acc)
      | Except.error err, _ => Except.error err
      | _, Except.error err => Except.error err := rfl

/-- If some support partition is longer than k, creation raises
ValueError. -/
theorem creationS_error_of_bad (e : SFMap) (k : Nat)
    (h : ∃ p, p ∈ e.map (fun kv => kv.1) ∧ k < p.length) :
    creationS e k = Except.error PyErr.valueError := by
  induction e with
  | nil =>
    obtain ⟨p, hp, _⟩ := h
    simp at hp
  | cons kv rest ih =>
    obtain ⟨p, hp, hlen⟩ := h
    rw [creationS_cons]
    simp only [List.map_cons, List.mem_cons] at hp
    rcases hp with hp | hp
    · subst hp
      rw [creationHelperS_err k kv.1 hlen]
      cases creationS rest k <;> rfl
    · have hrest : creationS rest k = Except.error PyErr.valueError :=
        ih ⟨p, hp, hlen⟩
      rw [hrest]
      cases hh : creationHelperS k kv.1 with
      | ok r => rfl
      | error err => rw [creationHelperS_err_shape k kv.1 err hh]

/-- If every support partition has length at most k, creation succeeds and
computes the linear extension of the determinant pipeline over the padded
support partitions. -/
theorem creationS_ok_of_good (e : SFMap) (k : Nat)
    (h : ∀ p, p ∈ e.map (fun kv => kv.1) → p.length ≤ k) :
    creationS e k = Except.ok (creationAll e k) := by
  induction e with
  | nil => rfl
  | cons kv rest ih =>
    have hh : kv.1.length ≤ k := h kv.1 (by simp)
    have hr : creationS rest k = Except.ok (creationAll rest k) := by
      apply ih
      intro p hp
      apply h
      simp only [List.map_cons, List.mem_cons]
      exact Or.inr hp
    rw [creationS_cons, creationHelperS_ok k kv.1 hh, hr]
    rfl

/-- The creation matrix is k by k. -/
theorem creationMatrix_dims (nv k : Nat) (padded : Ptn) :
    (creationMatrix nv k padded).length = k
    ∧ ∀ r, r ∈ creationMatrix nv k padded → r.length = k := by
  constructor
  · simp [creationMatrix]
  · intro r hr
    simp only [creationMatrix, List.mem_map] at hr
    obtain ⟨i, _, hi⟩ := hr
    rw [← hi]
    simp

/-- C9: for an S-basis element and a positive column height k, if some
support partition is strictly longer than k the creation operator raises
ValueError rather than returning an element; otherwise it succeeds, every
support partition having been zero-padded to length exactly k before the
k by k determinant matrix over the homogeneous functions is formed. -/
theorem claimC9_creation (e : SFMap) (k : Nat) :
    ((∃ p, p ∈ e.map (fun kv => kv.1) ∧ k < p.length) →
        creationS e k = Except.error PyErr.valueError)
    ∧ ((∀ p, p ∈ e.map (fun kv => kv.1) → p.length ≤ k) →
        creationS e k = Except.ok (creationAll e k)
        ∧ (∀ p, p ∈ e.map (fun kv => kv.1) → (padTo k p).length = k)
        ∧ (∀ p nv, (creationMatrix nv k (padTo k p)).length = k
            ∧ ∀ r, r ∈ creationMatrix nv k (padTo k p) → r.length = k)) :=
  ⟨creationS_error_of_bad e k,
   fun h =>
    ⟨creationS_ok_of_good e k h,
     fun p hp => by rw [padTo_length]; have := h p hp; omega,
     fun p nv => creationMatrix_dims nv k (padTo k p)⟩⟩

/-- Witness for C9: the S element supported on (1,1) makes creation with
k = 1 raise ValueError, and with k = 2 it succeeds. -/
theorem claimC9_creation_witness :
    ((∃ p, p ∈ ([([1, 1], fqtOne)] : SFMap).map (fun kv => kv.1) ∧ 1 < p.length)
      ∧ creationS [([1, 1], fqtOne)] 1 = Except.error PyErr.valueError)
    ∧ ((∀ p, p ∈ ([([1, 1], fqtOne)] : SFMap).map (fun kv => kv.1) → p.length ≤ 2)
      ∧ creationS [([1, 1], fqtOne)] 2 = Except.ok (creationAll [([1, 1], fqtOne)] 2)) :=
  ⟨⟨⟨[1, 1], by decide, by decide⟩,
    (claimC9_creation [([1, 1], fqtOne)] 1).1 ⟨[1, 1], by decide, by decide⟩⟩,
   ⟨by decide,
    ((claimC9_creation [([1, 1], fqtOne)] 2).2 (by decide)).1⟩⟩

/-- C10 counterexample: on the S-basis element of the partition (1), the
overridden omega_qt (conjugate the Schur-reinterpreted index, convert back
to S) and the generic omega_qt (power-sum route) return different
elements. -/
theorem claimC10_counterexample :
    sfEqv (omegaQtSOverride (sfSingle [1])) (omegaQtSGeneric (sfSingle [1]))
      = false := by decide

/-- C10 amended: on the S basis the overridden omega_qt does not agree
with the generic omega_qt: at S(1) the override returns 1/(1-t) times
S(1), while the generic route returns (1-q)/(1-t) times S(1), and the two
values differ. -/
theorem claimC10_amended :
    fqtBeq (sfCoeff (omegaQtSOverride (sfSingle [1])) [1]) oneOverOneMinusT = true
    ∧ fqtBeq (sfCoeff (omegaQtSGeneric (sfSingle [1])) [1]) oneMinusQOverOneMinusT
      = true
    ∧ (omegaQtSOverride (sfSingle [1])).map (fun kv => kv.1) = [[1]]
    ∧ (omegaQtSGeneric (sfSingle [1])).map (fun kv => kv.1) = [[1]]
    ∧ fqtBeq oneOverOneMinusT oneMinusQOverOneMinusT = false := by
  refine ⟨by decide, by decide, by decide, by decide, by decide⟩

/-! Validation of the embedding against the values documented in the
doctests of the source. -/

/-- The J-to-Schur expansion of (2,1) matches the doctest of _to_s: zero
at (3), the coefficient of the doctest at (2,1) and at (1,1,1). -/
theorem validation_jToS_doctest :
    sfEqv (jToS [2, 1])
      [([1, 1, 1],
        ⟨[((0, 1), -1), ((0, 2), 1), ((0, 3), 1), ((0, 4), -1), ((1, 0), 1),
          ((1, 1), -1), ((1, 2), -1), ((1, 3), 1)], qtOne⟩),
       ([2, 1],
        ⟨[((0, 0), 1), ((0, 1), -2), ((0, 2), 1), ((1, 2), -1), ((1, 3), 2),
          ((1, 4), -1)], qtOne⟩)] = true
    ∧ fqtIsZero (sfCoeff (jToS [2, 1]) [3]) = true := by
  refine ⟨by decide, by decide⟩

/-- The determinant pipeline of the creation helper at k = 2 on the padded
partition (1,0) matches the doctest of _creation_by_determinant_helper:
(q^3 t - q^2 t - q + 1) at (2,1) plus (q^3 - q^2 t - q + t) at (3). -/
theorem validation_creation_doctest :
    sfEqv (creationDetPipeline 2 (padTo 2 [1]))
      [([2, 1], ⟨[((0, 0), 1), ((1, 0), -1), ((2, 1), -1), ((3, 1), 1)], qtOne⟩),
       ([3], ⟨[((0, 1), 1), ((1, 0), -1), ((2, 1), -1), ((3, 0), 1)], qtOne⟩)]
      = true := by decide

/-- The H-to-Schur table at weight 2 matches the doctest: H(1,1) expands
as s(1,1) + t s(2) and H(2) as q s(1,1) + s(2). -/
theorem validation_hToS_doctest :
    fqtBeq (sfCoeff (hToS [1, 1]) [1, 1]) fqtOne = true
    ∧ fqtBeq (sfCoeff (hToS [1, 1]) [2]) ⟨[((0, 1), 1)], qtOne⟩ = true
    ∧ fqtBeq (sfCoeff (hToS [2]) [1, 1]) ⟨[((1, 0), 1)], qtOne⟩ = true
    ∧ fqtBeq (sfCoeff (hToS [2]) [2]) fqtOne = true := by
  refine ⟨by decide, by decide, by decide, by decide⟩

/-- The Ht-to-Schur table at weight 2 matches the doctest: Ht(1,1) expands
as t s(1,1) + s(2) and Ht(2) as q s(1,1) + s(2). -/
theorem validation_htToS_doctest :
    fqtBeq (sfCoeff (htToS [1, 1]) [1, 1]) ⟨[((0, 1), 1)], qtOne⟩ = true
    ∧ fqtBeq (sfCoeff (htToS [1, 1]) [2]) fqtOne = true
    ∧ fqtBeq (sfCoeff (htToS [2]) [1, 1]) ⟨[((1, 0), 1)], qtOne⟩ = true
    ∧ fqtBeq (sfCoeff (htToS [2]) [2]) fqtOne = true := by
  refine ⟨by decide, by decide, by decide, by decide⟩

/-- The generic power-sum route matches the doctests: the H(1) self
pairing is (1-q)/(1-t) and the Q(2) against H(1,1) pairing is t. -/
theorem validation_generic_scalarQt_doctest :
    fqtBeq (genericScalarQt ⟨Tag.H, sfSingle [1]⟩ ⟨Tag.H, sfSingle [1]⟩)
      oneMinusQOverOneMinusT = true
    ∧ fqtBeq (genericScalarQt ⟨Tag.Q, sfSingle [2]⟩ ⟨Tag.H, sfSingle [1, 1]⟩)
      ⟨[((0, 1), 1)], qtOne⟩ = true := by
  refine ⟨by decide, by decide⟩

/-- At concrete weight-2 inputs the specialized scalar_qt diagonals agree
with the generic power-sum route: the P-against-P diagonal c1/c2 at (2),
the Q-against-P constant 1 at (1,1), and the J-against-J diagonal
c1 times c2 at (2). -/
theorem validation_specialized_agrees_generic :
    fqtBeq (genericScalarQt ⟨Tag.P, sfSingle [2]⟩ ⟨Tag.P, sfSingle [2]⟩)
      (scalarQtBasisP [2] [2]) = true
    ∧ fqtBeq (genericScalarQt ⟨Tag.Q, sfSingle [1, 1]⟩ ⟨Tag.P, sfSingle [1, 1]⟩)
      fqtOne = true
    ∧ fqtBeq (genericScalarQt ⟨Tag.J, sfSingle [2]⟩ ⟨Tag.J, sfSingle [2]⟩)
      (fqtMul (fqtOfQT (c1 [2])) (fqtOfQT (c2 [2]))) = true := by
  refine ⟨by decide, by decide, by decide⟩

/-- Round trips through the inverse tables at weight 2: converting the
Schur expansion of a basis element back into its basis recovers the
element, for the S, H and Ht bases. -/
theorem validation_roundtrip_tables :
    sfEqv (schurIntoBasis sBasisToS (sBasisToS [2])) (sfSingle [2]) = true
    ∧ sfEqv (schurIntoBasis hToS (hToS [1, 1])) (sfSingle [1, 1]) = true
    ∧ sfEqv (schurIntoBasis htToS (htToS [2])) (sfSingle [2]) = true := by
  refine ⟨by decide, by decide, by decide⟩

/-- Round trips through the diagonal coercions at weight 2 and 3, and the
doctest value of the J-into-P coercion at (2): J(2) maps to
(q t^2 - q t - t + 1) P(2). -/
theorem validation_roundtrip_diagonal :
    sfEqv (pIntoJ (jIntoP (sfSingle [2, 1]))) (sfSingle [2, 1]) = true
    ∧ sfEqv (jIntoP (pIntoJ (sfSingle [2]))) (sfSingle [2]) = true
    ∧ sfEqv (qIntoP (pIntoQ (sfSingle [2]))) (sfSingle [2]) = true
    ∧ sfEqv (pIntoQ (qIntoP (sfSingle [1, 1]))) (sfSingle [1, 1]) = true
    ∧ fqtBeq (sfCoeff (jIntoP (sfSingle [2])) [2])
      (fqtOfQT [((0, 0), 1), ((0, 1), -1), ((1, 1), -1), ((1, 2), 1)]) = true := by
  refine ⟨by decide, by decide, by decide, by decide, by decide⟩

/-! Semantic coefficient lemmas: the coefficient of an exponent pair is
additive over the merge, multiplicative over the convolution, and the
convolution is commutative at the level of coefficients.  These hold for
arbitrary term lists and drive the general theorems below about every
partition at once. -/

/-- Coefficient of the empty list. -/
theorem qtCoeffAt_nil (k : Nat × Nat) : qtCoeffAt k ([] : QT) = 0 := rfl

/-- Coefficient of a cons cell. -/
theorem qtCoeffAt_cons (k : Nat × Nat) (x : (Nat × Nat) × Int) (rest : QT) :
    qtCoeffAt k (x :: rest) = (if x.1 = k then x.2 else 0) + qtCoeffAt k rest := rfl

/-- If two keys are mutually not below each other they are equal. -/
theorem keyLt_total (a b : Nat × Nat) (h1 : keyLt a b = false)
    (h2 : keyLt b a = false) : a = b := by
  obtain ⟨a1, a2⟩ := a
  obtain ⟨b1, b2⟩ := b
  simp only [keyLt, Bool.or_eq_false_iff, Bool.and_eq_false_iff,
    decide_eq_false_iff_not] at h1 h2
  simp only [Prod.mk.injEq]
  omega

/-- The merge with fuel covering both lengths is coefficientwise
additive. -/
theorem qtCoeffAt_addF (k : Nat × Nat) :
    ∀ (fuel : Nat) (p r : QT), p.length + r.length ≤ fuel →
      qtCoeffAt k (qtAddF fuel p r) = qtCoeffAt k p + qtCoeffAt k r := by
  intro fuel
  induction fuel with
  | zero =>
    intro p r h
    cases p with
    | nil => simp [qtAddF, qtCoeffAt_nil]
    | cons x xs =>
      cases r with
      | nil => simp [qtAddF, qtCoeffAt_nil]
      | cons y ys => simp at h
  | succ n ih =>
    intro p r h
    cases p with
    | nil => simp [qtAddF, qtCoeffAt_nil]
    | cons x xs =>
      cases r with
      | nil => simp [qtAddF, qtCoeffAt_nil]
      | cons y ys =>
        obtain ⟨k1, a⟩ := x
        obtain ⟨k2, b⟩ := y
        simp only [List.length_cons] at h
        by_cases h1 : keyLt k1 k2
        · rw [show qtAddF (n + 1) ((k1, a) :: xs) ((k2, b) :: ys)
              = (k1, a) :: qtAddF n xs ((k2, b) :: ys) from by simp [qtAddF, h1]]
          simp only [qtCoeffAt_cons]
          rw [ih xs ((k2, b) :: ys) (by simp; omega)]
          simp only [qtCoeffAt_cons]
          ring
        · by_cases h2 : keyLt k2 k1
          · rw [show qtAddF (n + 1) ((k1, a) :: xs) ((k2, b) :: ys)
                = (k2, b) :: qtAddF n ((k1, a) :: xs) ys from by simp [qtAddF, h1, h2]]
            simp only [qtCoeffAt_cons]
            rw [ih ((k1, a) :: xs) ys (by simp; omega)]
            simp only [qtCoeffAt_cons]
            ring
          · have hk : k1 = k2 :=
              keyLt_total k1 k2 (by simpa using h1) (by simpa using h2)
            subst hk
            by_cases h3 : a + b = 0
            · rw [show qtAddF (n + 1) ((k1, a) :: xs) ((k1, b) :: ys)
                  = qtAddF n xs ys from by simp [qtAddF, h1, h2, h3]]
              rw [ih xs ys (by omega), qtCoeffAt_cons, qtCoeffAt_cons]
              by_cases hkk : k1 = k
              · simp [hkk]
                omega
              · simp [hkk]
            · rw [show qtAddF (n + 1) ((k1, a) :: xs) ((k1, b) :: ys)
                  = (k1, a + b) :: qtAddF n xs ys from by simp [qtAddF, h1, h2, h3]]
              rw [qtCoeffAt_cons, ih xs ys (by omega), qtCoeffAt_cons,
                qtCoeffAt_cons]
              by_cases hkk : k1 = k
              · simp [hkk]
                omega
              · simp [hkk]

/-- The addition of term lists is coefficientwise additive. -/
theorem qtCoeffAt_add (k : Nat × Nat) (p r : QT) :
    qtCoeffAt k (qtAdd p r) = qtCoeffAt k p + qtCoeffAt k r :=
  qtCoeffAt_addF k (p.length + r.length) p r (Nat.le_refl _)

/-- Coefficient of the negation. -/
theorem qtCoeffAt_neg (k : Nat × Nat) (p : QT) :
    qtCoeffAt k (qtNeg p) = -(qtCoeffAt k p) := by
  induction p with
  | nil => rfl
  | cons x xs ih =>
    rw [show qtNeg (x :: xs) = (x.1, -x.2) :: qtNeg xs from rfl,
      qtCoeffAt_cons, qtCoeffAt_cons, ih]
    by_cases hkk : x.1 = k
    · simp [hkk]
      ring
    · simp [hkk]

/-- Sum over the empty list. -/
theorem intSum_nil : intSum [] = 0 := rfl

/-- Sum over a cons cell. -/
theorem intSum_cons (x : Int) (l : List Int) : intSum (x :: l) = x + intSum l := rfl

/-- A mapped sum of zeros is zero. -/
theorem intSum_map_zero {A : Type} (l : List A) :
    intSum (l.map (fun _ => (0 : Int))) = 0 := by
  induction l with
  | nil => rfl
  | cons x xs ih =>
    rw [List.map_cons, intSum_cons, ih]
    simp

/-- A mapped sum splits over pointwise addition. -/
theorem intSum_map_add {A : Type} (l : List A) (f g : A → Int) :
    intSum (l.map (fun x => f x + g x)) = intSum (l.map f) + intSum (l.map g) := by
  induction l with
  | nil => rfl
  | cons x xs ih =>
    rw [List.map_cons, List.map_cons, List.map_cons, intSum_cons, intSum_cons,
      intSum_cons, ih]
    ring

/-- Mapped sums agree when the functions agree on the list. -/
theorem intSum_map_congr {A : Type} (l : List A) (f g : A → Int)
    (h : ∀ x, x ∈ l → f x = g x) : intSum (l.map f) = intSum (l.map g) := by
  induction l with
  | nil => rfl
  | cons x xs ih =>
    rw [List.map_cons, List.map_cons, intSum_cons, intSum_cons,
      h x (by simp), ih (fun y hy => h y (by simp [hy]))]

/-- Exchange of a double mapped sum. -/
theorem intSum_swap {A B : Type} (la : List A) (lb : List B) (f : A → B → Int) :
    intSum (la.map (fun x => intSum (lb.map (fun y => f x y))))
      = intSum (lb.map (fun y => intSum (la.map (fun x => f x y)))) := by
  induction la with
  | nil =>
    rw [List.map_nil, intSum_nil, ← intSum_map_zero lb]
    rfl
  | cons x xs ih =>
    rw [List.map_cons, intSum_cons, ih]
    rw [← intSum_map_add lb]
    rfl

/-- Coefficient of a one-term multiple as a mapped sum. -/
theorem qtCoeffAt_monMul (k : Nat × Nat) (m : Nat × Nat) (c : Int) (b : QT) :
    qtCoeffAt k (qtMonMul m c b)
      = intSum (b.map (fun y =>
          if (m.1 + y.1.1, m.2 + y.1.2) = k then c * y.2 else 0)) := by
  induction b with
  | nil => rfl
  | cons y ys ih =>
    rw [show qtMonMul m c (y :: ys)
        = ((m.1 + y.1.1, m.2 + y.1.2), c * y.2) :: qtMonMul m c ys from rfl]
    rw [qtCoeffAt_cons, List.map_cons, intSum_cons, ih]

/-- Coefficient of a product as a double mapped sum over the two term
lists. -/
theorem qtCoeffAt_mul_expand (k : Nat × Nat) (a b : QT) :
    qtCoeffAt k (qtMul a b)
      = intSum (a.map (fun x => intSum (b.map (fun y =>
          if (x.1.1 + y.1.1, x.1.2 + y.1.2) = k then x.2 * y.2 else 0)))) := by
  induction a with
  | nil => rfl
  | cons x xs ih =>
    rw [show qtMul (x :: xs) b = qtAdd (qtMonMul x.1 x.2 b) (qtMul xs b) from rfl,
      qtCoeffAt_add, ih, qtCoeffAt_monMul, List.map_cons, intSum_cons]

/-- The convolution is commutative at the level of coefficients. -/
theorem qtCoeffAt_mul_comm (k : Nat × Nat) (a b : QT) :
    qtCoeffAt k (qtMul a b) = qtCoeffAt k (qtMul b a) := by
  rw [qtCoeffAt_mul_expand, qtCoeffAt_mul_expand, intSum_swap]
  apply intSum_map_congr
  intro y _
  apply intSum_map_congr
  intro x _
  rw [Nat.add_comm y.1.1 x.1.1, Nat.add_comm y.1.2 x.1.2, Int.mul_comm y.2 x.2]

/-- Multiplying by one on the right leaves every coefficient unchanged. -/
theorem qtCoeffAt_mul_one (k : Nat × Nat) (p : QT) :
    qtCoeffAt k (qtMul p qtOne) = qtCoeffAt k p := by
  rw [qtCoeffAt_mul_comm, qtMul_one_left]

/-- Constant-term coefficient of a one-term multiple. -/
theorem qtCoeffAt00_monMul (m1 m2 : Nat) (c : Int) (b : QT) :
    qtCoeffAt (0, 0) (qtMonMul (m1, m2) c b)
      = (if (m1, m2) = ((0 : Nat), (0 : Nat)) then c else 0)
        * qtCoeffAt (0, 0) b := by
  induction b with
  | nil => simp [qtMonMul, qtCoeffAt_nil]
  | cons y ys ih =>
    obtain ⟨⟨y1, y2⟩, cy⟩ := y
    rw [show qtMonMul (m1, m2) c (((y1, y2), cy) :: ys)
        = ((m1 + y1, m2 + y2), c * cy) :: qtMonMul (m1, m2) c ys from rfl,
      qtCoeffAt_cons, ih, qtCoeffAt_cons]
    simp only [Prod.mk.injEq]
    by_cases hm1 : m1 = 0 <;> by_cases hm2 : m2 = 0 <;>
      by_cases hy1 : y1 = 0 <;> by_cases hy2 : y2 = 0 <;>
      simp [hm1, hm2, hy1, hy2, Nat.add_eq_zero] <;> ring

/-- Coefficient of the constant term of a product is the product of the
constant terms. -/
theorem qtCoeffAt00_mul (p r : QT) :
    qtCoeffAt (0, 0) (qtMul p r)
      = qtCoeffAt (0, 0) p * qtCoeffAt (0, 0) r := by
  induction p with
  | nil => simp [qtMul, qtCoeffAt_nil]
  | cons x xs ih =>
    obtain ⟨⟨x1, x2⟩, cx⟩ := x
    rw [show qtMul (((x1, x2), cx) :: xs) r
        = qtAdd (qtMonMul (x1, x2) cx r) (qtMul xs r) from rfl,
      qtCoeffAt_add, qtCoeffAt00_monMul, ih, qtCoeffAt_cons]
    ring

/-- The constant term of every c1 factor is one, so the constant term of
c1 is one at every partition: the diagonal scalar relating the J and P
bases never degenerates to zero. -/
theorem c1_constTerm (l : Ptn) : qtCoeffAt (0, 0) (c1 l) = 1 := by
  show qtCoeffAt (0, 0) (List.foldl (fun acc i => qtMul acc (qtSub qtOne
      (qtMonomial ((armLengthList l).getD i 0 + 1) ((legLengthList l).getD i 0) 1)))
      qtOne (List.range (listSum l))) = 1
  have hstep : ∀ (idxs : List Nat) (acc : QT), qtCoeffAt (0, 0) acc = 1 →
      qtCoeffAt (0, 0) (List.foldl (fun acc i => qtMul acc (qtSub qtOne
        (qtMonomial ((armLengthList l).getD i 0 + 1) ((legLengthList l).getD i 0) 1)))
        acc idxs) = 1 := by
    intro idxs
    induction idxs with
    | nil => intro acc h; exact h
    | cons i is ih =>
      intro acc h
      rw [List.foldl_cons]
      apply ih
      rw [qtCoeffAt00_mul, h, Int.one_mul]
      unfold qtSub
      rw [qtCoeffAt_add, qtCoeffAt_neg]
      rw [show qtCoeffAt (0, 0) (qtMonomial ((armLengthList l).getD i 0 + 1)
          ((legLengthList l).getD i 0) 1) = 0 from by simp [qtMonomial, qtCoeffAt]]
      rfl
  exact hstep (List.range (listSum l)) qtOne rfl

/-- The constant term of every c2 factor is one, so the constant term of
c2 is one at every partition: the diagonal scalar relating the J and Q
bases never degenerates to zero. -/
theorem c2_constTerm (l : Ptn) : qtCoeffAt (0, 0) (c2 l) = 1 := by
  show qtCoeffAt (0, 0) (List.foldl (fun acc i => qtMul acc (qtSub qtOne
      (qtMonomial ((armLengthList l).getD i 0) ((legLengthList l).getD i 0 + 1) 1)))
      qtOne (List.range (listSum l))) = 1
  have hstep : ∀ (idxs : List Nat) (acc : QT), qtCoeffAt (0, 0) acc = 1 →
      qtCoeffAt (0, 0) (List.foldl (fun acc i => qtMul acc (qtSub qtOne
        (qtMonomial ((armLengthList l).getD i 0) ((legLengthList l).getD i 0 + 1) 1)))
        acc idxs) = 1 := by
    intro idxs
    induction idxs with
    | nil => intro acc h; exact h
    | cons i is ih =>
      intro acc h
      rw [List.foldl_cons]
      apply ih
      rw [qtCoeffAt00_mul, h, Int.one_mul]
      unfold qtSub
      rw [qtCoeffAt_add, qtCoeffAt_neg]
      rw [show qtCoeffAt (0, 0) (qtMonomial ((armLengthList l).getD i 0)
          ((legLengthList l).getD i 0 + 1) 1) = 0 from by simp [qtMonomial, qtCoeffAt]]
      rfl
  exact hstep (List.range (listSum l)) qtOne rfl

/-- The c1 scalar is never the zero polynomial. -/
theorem c1_ne_zero (l : Ptn) : c1 l ≠ qtZero := by
  intro h
  have := c1_constTerm l
  rw [h] at this
  exact absurd this (by decide)

/-- The c2 scalar is never the zero polynomial. -/
theorem c2_ne_zero (l : Ptn) : c2 l ≠ qtZero := by
  intro h
  have := c2_constTerm l
  rw [h] at this
  exact absurd this (by decide)

/-! General round trips through the registered diagonal coercions: for
every partition, applying a diagonal coercion and its registered inverse
returns the original basis element (semantically, in the fraction
field). -/

/-- Semantic equality of fractions is reflexive. -/
theorem fqtEqSem_refl (x : FQT) : fqtEqSem x x := fun _ => rfl

/-- The linear extension of a rule applied to a scaled single entry. -/
theorem applyModuleMorphism_pair (f : Ptn → SFMap) (l : Ptn) (c : FQT) :
    applyModuleMorphism f [(l, c)] = sfScale c (f l) := by
  show sfAdd (sfScale c (f l)) [] = sfScale c (f l)
  exact sfAdd_nil_right _

/-- The master cancellation: scaling by any diagonal fraction and then by
its inverse is semantically the identity scalar. -/
theorem fqtEqSem_diagRoundtrip (D : FQT) :
    fqtEqSem (fqtMul (fqtMul D fqtOne) (fqtMul (fqtInv D) fqtOne)) fqtOne := by
  intro k
  show qtCoeffAt k (qtMul (qtMul (qtMul D.num qtOne) (qtMul D.den qtOne)) qtOne)
      = qtCoeffAt k (qtMul qtOne (qtMul (qtMul D.den qtOne) (qtMul D.num qtOne)))
  rw [qtCoeffAt_mul_one, qtMul_one_left, qtCoeffAt_mul_comm]

/-- Coefficients of a two-sided diagonal composition on a single basis
element. -/
theorem diagComp_single (A B : Ptn → FQT) (l : Ptn) :
    applyModuleMorphism (fun m => sfScale (B m) (sfSingle m))
      (applyModuleMorphism (fun m => sfScale (A m) (sfSingle m)) (sfSingle l))
      = [(l, fqtMul (fqtMul (A l) fqtOne) (fqtMul (B l) fqtOne))] := by
  rw [applyModuleMorphism_single]
  rw [show sfScale (A l) (sfSingle l) = [(l, fqtMul (A l) fqtOne)] from rfl]
  rw [applyModuleMorphism_pair]
  rfl

/-- Semantic equality of a scaled single entry with the plain basis
element, given the scalar is semantically one. -/
theorem sfEqSem_single_of_scalar (l : Ptn) (X : FQT)
    (h : fqtEqSem X fqtOne) : sfEqSem [(l, X)] (sfSingle l) := by
  intro m
  by_cases hm : l = m
  · subst hm
    rw [show sfCoeff [(l, X)] l = X from by simp [sfCoeff],
      show sfCoeff (sfSingle l) l = fqtOne from by simp [sfCoeff, sfSingle]]
    exact h
  · rw [show sfCoeff [(l, X)] m = fqtZero from by simp [sfCoeff, hm],
      show sfCoeff (sfSingle l) m = fqtZero from by simp [sfCoeff, sfSingle, hm]]
    exact fqtEqSem_refl _

/-- Round trip J to P to J on every basis element. -/
theorem roundtrip_JPJ (l : Ptn) :
    sfEqSem (pIntoJ (jIntoP (sfSingle l))) (sfSingle l) := by
  unfold jIntoP pIntoJ
  rw [diagComp_single (fun m => fqtOfQT (c2 m)) (fun m => fqtInv (fqtOfQT (c2 m))) l]
  exact sfEqSem_single_of_scalar l _ (fqtEqSem_diagRoundtrip (fqtOfQT (c2 l)))

/-- Round trip P to J to P on every basis element. -/
theorem roundtrip_PJP (l : Ptn) :
    sfEqSem (jIntoP (pIntoJ (sfSingle l))) (sfSingle l) := by
  unfold jIntoP pIntoJ
  rw [diagComp_single (fun m => fqtInv (fqtOfQT (c2 m))) (fun m => fqtOfQT (c2 m)) l]
  exact sfEqSem_single_of_scalar l _ (fqtEqSem_diagRoundtrip (fqtInv (fqtOfQT (c2 l))))

/-- Round trip P to Q to P on every basis element. -/
theorem roundtrip_PQP (l : Ptn) :
    sfEqSem (qIntoP (pIntoQ (sfSingle l))) (sfSingle l) := by
  unfold pIntoQ qIntoP
  rw [diagComp_single (fun m => scalarQtBasisP m m) (fun m => fqtInv (scalarQtBasisP m m)) l]
  exact sfEqSem_single_of_scalar l _ (fqtEqSem_diagRoundtrip (scalarQtBasisP l l))

/-- Round trip Q to P to Q on every basis element. -/
theorem roundtrip_QPQ (l : Ptn) :
    sfEqSem (pIntoQ (qIntoP (sfSingle l))) (sfSingle l) := by
  unfold pIntoQ qIntoP
  rw [diagComp_single (fun m => fqtInv (scalarQtBasisP m m)) (fun m => scalarQtBasisP m m) l]
  exact sfEqSem_single_of_scalar l _ (fqtEqSem_diagRoundtrip (fqtInv (scalarQtBasisP l l)))

end Mcd
